import Mathlib

/-!
Verification development for the `microjson` library (`src/lib.rs`).

The embedding models the library's data model and algorithms over a shallow
embedding of the Rust source:

* Rust `f64` is modelled by `F64`: an exact rational together with the two
  infinities and NaN.  Arithmetic is exact rational arithmetic, except that a
  result whose magnitude reaches `2^1024` overflows to an infinity, and
  `powf`/`powi` on ten (`F64.pow10`) overflows to infinity (resp. underflows
  to zero) for exponents beyond the IEEE range.  This keeps every behaviour
  the claims exercise (finiteness checks, overflow degradation, exactly
  representable literals) while staying executable.
* `HashMap<String, JsonValue>` is modelled by an association list with
  last-write-wins insertion (`insertKV`) and key lookup (`lookupKV`); key
  order is irrelevant to every modelled operation, like hash order in Rust.
* The parser (`FromStr for JsonValue`, lib.rs lines 341-534) is modelled by
  `parseLoop` and its scanning helpers, driven by a fuel parameter that
  stands for the source's unbounded `loop`; every iteration of the source
  loop advances the byte index, so `length + 2` fuel is always sufficient,
  and all lemmas about `Except.ok` results hold for every fuel.
* The input `&str` is modelled as `List Char`.  The source scans raw UTF-8
  bytes, but every byte it inspects is ASCII punctuation, ASCII digits or
  ASCII control bytes, and non-ASCII UTF-8 bytes match none of those, so the
  character-level model is observationally the same.
-/

set_option maxRecDepth 10000
set_option exponentiation.threshold 2000

/-- Model of Rust `f64`: NaN, signed infinities, or a finite value modelled
as an exact rational.  `inf true` is negative infinity. -/
inductive F64 where
  | nan : F64
  | inf : Bool → F64
  | fin : ℚ → F64
deriving DecidableEq

/-- `f64::is_finite`. -/
def F64.isFinite : F64 → Bool
  | .fin _ => true
  | _ => false

/-- Rounding a real (rational) result into the `F64` model: magnitudes that
reach `2^1024` overflow to the correspondingly signed infinity, everything
else stays exact. -/
def F64.mk (q : ℚ) : F64 :=
  if ((2 ^ 1024 : ℕ) : ℚ) ≤ q ∨ q ≤ -((2 ^ 1024 : ℕ) : ℚ) then .inf (decide (q < 0))
  else .fin q

/-- `f64` addition (only the cases the parser can reach matter). -/
def F64.add : F64 → F64 → F64
  | .nan, _ => .nan
  | _, .nan => .nan
  | .inf s, .inf t => if s = t then .inf s else .nan
  | .inf s, .fin _ => .inf s
  | .fin _, .inf t => .inf t
  | .fin a, .fin b => F64.mk (a + b)

/-- `f64` multiplication. -/
def F64.mul : F64 → F64 → F64
  | .nan, _ => .nan
  | _, .nan => .nan
  | .inf s, .inf t => .inf (s != t)
  | .inf s, .fin b => if b = 0 then .nan else .inf (s != decide (b < 0))
  | .fin a, .inf t => if a = 0 then .nan else .inf (t != decide (a < 0))
  | .fin a, .fin b => F64.mk (a * b)

/-- `f64` division (divisor is never NaN in the parser). -/
def F64.div : F64 → F64 → F64
  | .nan, _ => .nan
  | _, .nan => .nan
  | .inf _, .inf _ => .nan
  | .inf s, .fin b => .inf (s != decide (b < 0))
  | .fin _, .inf _ => .fin 0
  | .fin a, .fin b =>
    if b = 0 then (if a = 0 then .nan else .inf (decide (a < 0))) else F64.mk (a / b)

/-- `f64` negation. -/
def F64.neg : F64 → F64
  | .nan => .nan
  | .inf s => .inf (!s)
  | .fin q => .fin (-q)

/-- `10_f64.powf(e)` (and `10_f64.powi(e)`, which the source only calls on
nonnegative integer exponents).  In the parser the exponent is always an
integer value; an exponent at or beyond `1100` overflows to infinity (IEEE
overflow already happens at `309`, and `F64.mk` would map every exact result
with exponent in `[309, 1100)` to the same infinity, so the cutoff only
spares the model from computing astronomically long numerals), and an
exponent at or below `-1100` underflows to zero. -/
def F64.pow10 : F64 → F64
  | .nan => .nan
  | .inf s => if s then .fin 0 else .inf false
  | .fin q =>
    if (1100 : ℚ) ≤ q then .inf false
    else if q ≤ -1100 then .fin 0
    else if q.den = 1 then
      (if 0 ≤ q.num then F64.mk (((10 ^ q.num.toNat : ℕ) : ℚ))
       else F64.mk (1 / ((10 ^ (-q.num).toNat : ℕ) : ℚ)))
    else .nan

/-- IEEE equality on `f64` (Rust `PartialEq for f64`): NaN is not equal to
anything, including itself. -/
def F64.beq : F64 → F64 → Bool
  | .fin a, .fin b => a == b
  | .inf s, .inf t => s == t
  | _, _ => false

/-- `FiniteF64` (lib.rs line 12): the finite-`f64` wrapper.  Inside the
library the only constructor is `TryFrom<f64>`, which rejects non-finite
values, so the payload is exactly a finite `f64`, i.e. a rational in the
model. -/
structure FiniteF64 where
  val : ℚ
deriving DecidableEq

/-- `PartialEq for FiniteF64` (derived in Rust): IEEE equality of the
wrapped `f64` payloads. -/
def FiniteF64.beq (a b : FiniteF64) : Bool :=
  F64.beq (.fin a.val) (.fin b.val)

/-- `TryFrom<f64> for FiniteF64` (lib.rs lines 97-106). -/
def FiniteF64.tryFrom (x : F64) : Except String FiniteF64 :=
  match x with
  | .fin q => .ok ⟨q⟩
  | _ => .error "value is not a finite number"

/-- `From<FiniteF64> for f64` (lib.rs line 128): unwraps the payload. -/
def FiniteF64.toF64 (n : FiniteF64) : F64 :=
  .fin n.val

/-- `JsonValue` (lib.rs lines 14-21).  `Object` is the association-list
model of `HashMap<String, JsonValue>`. -/
inductive JsonValue where
  | null : JsonValue
  | boolean : Bool → JsonValue
  | number : FiniteF64 → JsonValue
  | string : String → JsonValue
  | list : List JsonValue → JsonValue
  | object : List (String × JsonValue) → JsonValue

/-- `From<f64> for JsonValue` (lib.rs line 120):
`FiniteF64::try_from(val).map_or(JsonValue::Null, JsonValue::from)`. -/
def jsonFromF64 (x : F64) : JsonValue :=
  match FiniteF64.tryFrom x with
  | .ok f => .number f
  | .error _ => .null

/-- `HashMap::get` on the association-list model. -/
def lookupKV : List (String × JsonValue) → String → Option JsonValue
  | [], _ => none
  | (k', v) :: rest, k => if k' = k then some v else lookupKV rest k

/-- `HashMap::insert` on the association-list model: replaces the value of
an existing key (last write wins), otherwise appends the new entry. -/
def insertKV : List (String × JsonValue) → String → JsonValue → List (String × JsonValue)
  | [], k, v => [(k, v)]
  | (k', v') :: rest, k, v =>
    if k' = k then (k, v) :: rest else (k', v') :: insertKV rest k v


/-! ### Equality: the iterative work-list algorithm and the recursive reference

`sizeOf` on `JsonValue` is only used inside termination measures and
theorems, never in executable code. -/

theorem jsonSizeOf_pos (v : JsonValue) : 0 < sizeOf v := by
  cases v <;> simp_arith

theorem sizeOf_list_append (xs ys : List JsonValue) :
    sizeOf (xs ++ ys) + 1 = sizeOf xs + sizeOf ys := by
  induction xs with
  | nil => simp; omega
  | cons x xs ih => simp; omega

theorem sizeOf_list_reverse (xs : List JsonValue) :
    sizeOf xs.reverse = sizeOf xs := by
  induction xs with
  | nil => rfl
  | cons x xs ih =>
    have h := sizeOf_list_append xs.reverse [x]
    simp [List.reverse_cons]
    simp at h
    omega

theorem sizeOf_map_snd_le (l : List (String × JsonValue)) :
    sizeOf (l.map Prod.snd) ≤ sizeOf l := by
  induction l with
  | nil => simp
  | cons kv rest ih =>
    obtain ⟨k, v⟩ := kv
    simp
    have : 0 < sizeOf k := by cases k; simp_arith
    omega

theorem sizeOf_lookupKV {r : List (String × JsonValue)} {k : String} {v : JsonValue}
    (h : lookupKV r k = some v) : sizeOf v < sizeOf r := by
  induction r with
  | nil => simp [lookupKV] at h
  | cons kv rest ih =>
    obtain ⟨k', v'⟩ := kv
    by_cases hk : k' = k
    · simp [lookupKV, hk] at h
      subst h
      simp
      omega
    · simp [lookupKV, hk] at h
      have := ih h
      simp
      omega

/-- The right-hand values pushed while walking the left object's entries
(lib.rs lines 69-75): for each entry of `l` in order, look its key up in
`r`; `none` models the early `return false` on the first missing key. -/
def lookupAll (r : List (String × JsonValue)) : List (String × JsonValue) →
    Option (List JsonValue)
  | [] => some []
  | kv :: rest =>
    match lookupKV r kv.1 with
    | some v2 =>
      match lookupAll r rest with
      | some vs => some (v2 :: vs)
      | none => none
    | none => none

/-- The iterative, work-list deep equality (`PartialEq for JsonValue`,
lib.rs lines 57-86).  The two explicit stacks of the source are the two list
arguments (head = top of stack); `Vec::extend` followed by popping yields the
extended elements in reverse order, hence the `reverse ++`.  For objects the
source walks the left map's entries, requires each key in the right map, and
pushes the paired values; a missing key returns `false` at once, which the
`lookupAll` encoding reproduces. -/
def eqLoop : List JsonValue → List JsonValue → Bool
  | a :: ls, b :: rs =>
    match a, b with
    | .list xs, .list ys =>
      if xs.length = ys.length then eqLoop (xs.reverse ++ ls) (ys.reverse ++ rs) else false
    | .object l, .object r =>
      if l.length = r.length then
        match lookupAll r l with
        | some vs2 => eqLoop ((l.map Prod.snd).reverse ++ ls) (vs2.reverse ++ rs)
        | none => false
      else false
    | .boolean x, .boolean y => if x = y then eqLoop ls rs else false
    | .number x, .number y => if FiniteF64.beq x y then eqLoop ls rs else false
    | .string x, .string y => if x = y then eqLoop ls rs else false
    | .null, .null => eqLoop ls rs
    | _, _ => false
  | _, _ => true
termination_by l _ => sizeOf l
decreasing_by
  all_goals simp_arith
  · have h1 := sizeOf_list_append xs.reverse ls
    have h2 := sizeOf_list_reverse xs
    omega
  · have h1 := sizeOf_list_append (l.map Prod.snd).reverse ls
    have h2 := sizeOf_list_reverse (l.map Prod.snd)
    have h3 := sizeOf_map_snd_le l
    omega

/-- Entry point of the iterative equality: `a == b` starts with singleton
stacks (lib.rs lines 59-60). -/
def jsonEq (a b : JsonValue) : Bool :=
  eqLoop [a] [b]

mutual

/-- The recursive reference equality, written from the specification's words
(spec §4.1): equal scalars, lists of equal length with pairwise-equal
elements in order, objects of equal size where every key of the left object
is present in the right object with an equal value. -/
def eqSpec : JsonValue → JsonValue → Bool
  | .null, .null => true
  | .boolean a, .boolean b => a = b
  | .number a, .number b => FiniteF64.beq a b
  | .string a, .string b => a = b
  | .list xs, .list ys => xs.length = ys.length && eqSpecList xs ys
  | .object l, .object r => l.length = r.length && eqSpecFields r l
  | _, _ => false
termination_by a b => sizeOf a + sizeOf b
decreasing_by
  all_goals simp_arith

/-- Pairwise equality of list elements, in order (spec §4.1). -/
def eqSpecList : List JsonValue → List JsonValue → Bool
  | [], [] => true
  | x :: xs, y :: ys => eqSpec x y && eqSpecList xs ys
  | _, _ => false
termination_by xs ys => sizeOf xs + sizeOf ys
decreasing_by
  all_goals simp_arith

/-- Every key of the left entries is present in `r` with an equal value
(spec §4.1). -/
def eqSpecFields (r : List (String × JsonValue)) : List (String × JsonValue) → Bool
  | [] => true
  | (k, v) :: rest =>
    (match h : lookupKV r k with
     | some v2 => eqSpec v v2
     | none => false) && eqSpecFields r rest
termination_by l => sizeOf r + sizeOf l
decreasing_by
  · have := sizeOf_lookupKV h
    simp_arith
    omega
  · simp_arith

end


theorem eqLoop_nil_left (rs : List JsonValue) : eqLoop [] rs = true := by
  simp [eqLoop]

theorem eqLoop_nil_right (ls : List JsonValue) : eqLoop ls [] = true := by
  cases ls <;> simp [eqLoop]

theorem lookupAll_length {l r : List (String × JsonValue)} {vs2 : List JsonValue}
    (h : lookupAll r l = some vs2) : vs2.length = l.length := by
  induction l generalizing vs2 with
  | nil => simp [lookupAll] at h; simp [h]
  | cons kv rest ih =>
    simp only [lookupAll] at h
    cases hv2 : lookupKV r kv.1 with
    | none => simp [hv2] at h
    | some v2 =>
      cases hrest : lookupAll r rest with
      | none => simp [hv2, hrest] at h
      | some vs =>
        simp [hv2, hrest] at h
        subst h
        simp [ih hrest]

theorem eqSpecFields_cons_some {r : List (String × JsonValue)} {k : String}
    {v2 : JsonValue} (v : JsonValue) (rest : List (String × JsonValue))
    (h : lookupKV r k = some v2) :
    eqSpecFields r ((k, v) :: rest) = (eqSpec v v2 && eqSpecFields r rest) := by
  simp only [eqSpecFields]
  split
  · rename_i v2' hv2'
    rw [h] at hv2'
    injection hv2' with hx
    rw [hx]
  · rename_i hv2'
    rw [h] at hv2'
    cases hv2'

theorem eqSpecFields_cons_none {r : List (String × JsonValue)} {k : String}
    (v : JsonValue) (rest : List (String × JsonValue))
    (h : lookupKV r k = none) :
    eqSpecFields r ((k, v) :: rest) = false := by
  simp only [eqSpecFields]
  split
  · rename_i v2' hv2'
    rw [h] at hv2'
    cases hv2'
  · simp

theorem eqSpecFields_eq_of_lookupAll_some {l r : List (String × JsonValue)}
    {vs2 : List JsonValue} (h : lookupAll r l = some vs2) :
    eqSpecFields r l = eqSpecList (l.map Prod.snd) vs2 := by
  induction l generalizing vs2 with
  | nil =>
    simp [lookupAll] at h
    simp [h, eqSpecFields, eqSpecList]
  | cons kv rest ih =>
    obtain ⟨k, v⟩ := kv
    simp only [lookupAll] at h
    cases hv2 : lookupKV r k with
    | none => simp [hv2] at h
    | some v2 =>
      cases hrest : lookupAll r rest with
      | none => simp [hv2, hrest] at h
      | some vs =>
        simp [hv2, hrest] at h
        subst h
        rw [eqSpecFields_cons_some v rest hv2, ih hrest]
        simp [eqSpecList]

theorem eqSpecFields_false_of_lookupAll_none {l r : List (String × JsonValue)}
    (h : lookupAll r l = none) : eqSpecFields r l = false := by
  induction l with
  | nil => simp [lookupAll] at h
  | cons kv rest ih =>
    obtain ⟨k, v⟩ := kv
    simp only [lookupAll] at h
    cases hv2 : lookupKV r k with
    | none => exact eqSpecFields_cons_none v rest hv2
    | some v2 =>
      cases hrest : lookupAll r rest with
      | none => rw [eqSpecFields_cons_some v rest hv2, ih hrest]; simp
      | some vs => simp [hv2, hrest] at h

theorem eqSpecList_snoc (xs ys : List JsonValue) (x y : JsonValue) :
    eqSpecList (xs ++ [x]) (ys ++ [y]) = (eqSpecList xs ys && eqSpec x y) := by
  induction xs generalizing ys with
  | nil =>
    cases ys with
    | nil => simp [eqSpecList]
    | cons y' ys' =>
      cases ys' with
      | nil => simp [eqSpecList]
      | cons y'' ys'' => simp [eqSpecList]
  | cons x' xs' ih =>
    cases ys with
    | nil =>
      cases xs' with
      | nil => simp [eqSpecList]
      | cons x'' xs'' => simp [eqSpecList]
    | cons y' ys' => simp [eqSpecList, ih, Bool.and_assoc]

theorem eqSpecList_reverse (xs ys : List JsonValue) :
    eqSpecList xs.reverse ys.reverse = eqSpecList xs ys := by
  induction xs generalizing ys with
  | nil =>
    cases ys with
    | nil => rfl
    | cons y ys' =>
      rw [List.reverse_cons]
      cases h : ys'.reverse with
      | nil => simp [eqSpecList]
      | cons z zs => simp [eqSpecList]
  | cons x xs' ih =>
    cases ys with
    | nil =>
      rw [List.reverse_cons]
      cases h : xs'.reverse with
      | nil => simp [eqSpecList]
      | cons z zs => simp [eqSpecList]
    | cons y ys' =>
      simp only [List.reverse_cons]
      rw [eqSpecList_snoc, ih, eqSpecList]
      exact Bool.and_comm _ _

theorem eqLoop_step_aux :
    ∀ (n : Nat) (a : JsonValue), sizeOf a ≤ n →
      ∀ (b : JsonValue) (ls rs : List JsonValue),
        eqLoop (a :: ls) (b :: rs) = (eqSpec a b && eqLoop ls rs) := by
  intro n
  induction n with
  | zero =>
    intro a ha
    have := jsonSizeOf_pos a
    omega
  | succ n ih =>
    intro a ha b ls rs
    have block :
        ∀ (xs : List JsonValue), (∀ x ∈ xs, sizeOf x ≤ n) →
          ∀ (ys ls' rs' : List JsonValue), xs.length = ys.length →
            eqLoop (xs ++ ls') (ys ++ rs') = (eqSpecList xs ys && eqLoop ls' rs') := by
      intro xs
      induction xs with
      | nil =>
        intro _ ys ls' rs' hlen
        cases ys with
        | nil => simp [eqSpecList]
        | cons y ys' => simp at hlen
      | cons x xs' ihx =>
        intro hsz ys ls' rs' hlen
        cases ys with
        | nil => simp at hlen
        | cons y ys' =>
          simp only [List.cons_append]
          rw [ih x (hsz x (List.mem_cons_self x xs')) y (xs' ++ ls') (ys' ++ rs')]
          rw [ihx (fun z hz => hsz z (List.mem_cons_of_mem x hz)) ys' ls' rs'
            (by simpa using hlen)]
          simp [eqSpecList, Bool.and_assoc]
    cases a with
    | null =>
      cases b <;> simp [eqLoop, eqSpec]
    | boolean x =>
      cases b with
      | null => simp [eqLoop, eqSpec]
      | boolean y => by_cases hxy : x = y <;> simp [eqLoop, eqSpec, hxy]
      | number y => simp [eqLoop, eqSpec]
      | string y => simp [eqLoop, eqSpec]
      | list ys => simp [eqLoop, eqSpec]
      | object r => simp [eqLoop, eqSpec]
    | number x =>
      cases b with
      | null => simp [eqLoop, eqSpec]
      | boolean y => simp [eqLoop, eqSpec]
      | number y => cases hbe : FiniteF64.beq x y <;> simp [eqLoop, eqSpec, hbe]
      | string y => simp [eqLoop, eqSpec]
      | list ys => simp [eqLoop, eqSpec]
      | object r => simp [eqLoop, eqSpec]
    | string x =>
      cases b with
      | null => simp [eqLoop, eqSpec]
      | boolean y => simp [eqLoop, eqSpec]
      | number y => simp [eqLoop, eqSpec]
      | string y => by_cases hxy : x = y <;> simp [eqLoop, eqSpec, hxy]
      | list ys => simp [eqLoop, eqSpec]
      | object r => simp [eqLoop, eqSpec]
    | list xs =>
      cases b with
      | null => simp [eqLoop, eqSpec]
      | boolean y => simp [eqLoop, eqSpec]
      | number y => simp [eqLoop, eqSpec]
      | string y => simp [eqLoop, eqSpec]
      | object r => simp [eqLoop, eqSpec]
      | list ys =>
        by_cases hlen : xs.length = ys.length
        · have hx : ∀ x ∈ xs.reverse, sizeOf x ≤ n := by
            intro x hxm
            have hmem : x ∈ xs := List.mem_reverse.mp hxm
            have h1 : sizeOf x < sizeOf xs := List.sizeOf_lt_of_mem hmem
            have h2 : sizeOf (JsonValue.list xs) = 1 + sizeOf xs := by simp
            omega
          simp only [eqLoop]
          rw [if_pos hlen]
          rw [block xs.reverse hx ys.reverse ls rs (by simp [hlen])]
          rw [eqSpecList_reverse]
          simp [eqSpec, hlen]
        · simp [eqLoop, eqSpec, hlen]
    | object l =>
      cases b with
      | null => simp [eqLoop, eqSpec]
      | boolean y => simp [eqLoop, eqSpec]
      | number y => simp [eqLoop, eqSpec]
      | string y => simp [eqLoop, eqSpec]
      | list ys => simp [eqLoop, eqSpec]
      | object r =>
        by_cases hlen : l.length = r.length
        · cases hmap : lookupAll r l with
          | none =>
            have hf := eqSpecFields_false_of_lookupAll_none hmap
            simp [eqLoop, eqSpec, hlen, hmap, hf]
          | some vs2 =>
            have hlens : vs2.length = l.length := lookupAll_length hmap
            have hx : ∀ x ∈ (l.map Prod.snd).reverse, sizeOf x ≤ n := by
              intro x hxm
              have hmem : x ∈ l.map Prod.snd := List.mem_reverse.mp hxm
              obtain ⟨kv, hkv, rfl⟩ := List.mem_map.mp hmem
              have h1 : sizeOf kv < sizeOf l := List.sizeOf_lt_of_mem hkv
              have h2 : sizeOf kv.2 < sizeOf kv := by
                obtain ⟨k0, v0⟩ := kv
                simp_arith
              have h3 : sizeOf (JsonValue.object l) = 1 + sizeOf l := by simp
              omega
            simp only [eqLoop]
            rw [if_pos hlen, hmap]
            dsimp only
            rw [block (l.map Prod.snd).reverse hx vs2.reverse ls rs (by simp [hlens])]
            rw [eqSpecList_reverse]
            simp [eqSpec, hlen, eqSpecFields_eq_of_lookupAll_some hmap]
        · simp [eqLoop, eqSpec, hlen]

theorem eqLoop_step (a b : JsonValue) (ls rs : List JsonValue) :
    eqLoop (a :: ls) (b :: rs) = (eqSpec a b && eqLoop ls rs) :=
  eqLoop_step_aux (sizeOf a) a (Nat.le_refl _) b ls rs

theorem jsonEq_eqSpec (a b : JsonValue) : jsonEq a b = eqSpec a b := by
  rw [jsonEq, eqLoop_step a b [] [], eqLoop_nil_left]
  simp

/-! ### Well-formed values and reflexivity of equality

A Rust `HashMap` has unique keys, so every `JsonValue` reachable through the
library's API corresponds to a model value whose objects have pairwise
distinct keys at every level.  `wfJ` captures exactly that. -/

/-- `k` does not occur among the keys of the entries. -/
def keyNotIn (k : String) : List (String × JsonValue) → Bool
  | [] => true
  | (k', _) :: rest => (k' != k) && keyNotIn k rest

/-- The entry keys are pairwise distinct (Rust `HashMap` invariant). -/
def keysNodup : List (String × JsonValue) → Bool
  | [] => true
  | (k, _) :: rest => keyNotIn k rest && keysNodup rest

mutual

/-- A model value is well formed when every object in it has pairwise
distinct keys; this is the image of the Rust `HashMap` key-uniqueness
invariant under the association-list model. -/
def wfJ : JsonValue → Bool
  | .null => true
  | .boolean _ => true
  | .number _ => true
  | .string _ => true
  | .list xs => wfList xs
  | .object kvs => keysNodup kvs && wfFields kvs
termination_by v => sizeOf v
decreasing_by
  all_goals simp_arith

/-- All elements are well formed. -/
def wfList : List JsonValue → Bool
  | [] => true
  | x :: xs => wfJ x && wfList xs
termination_by xs => sizeOf xs
decreasing_by
  all_goals simp_arith

/-- All entry values are well formed. -/
def wfFields : List (String × JsonValue) → Bool
  | [] => true
  | (_, v) :: rest => wfJ v && wfFields rest
termination_by l => sizeOf l
decreasing_by
  all_goals simp_arith

end

theorem keyNotIn_not_mem {k : String} {l : List (String × JsonValue)} {v : JsonValue}
    (h : keyNotIn k l = true) (hmem : (k, v) ∈ l) : False := by
  induction l with
  | nil => simp at hmem
  | cons kv rest ih =>
    obtain ⟨k', v'⟩ := kv
    simp [keyNotIn] at h
    rcases List.mem_cons.mp hmem with heq | hmem'
    · injection heq with hk hv
      exact h.1 hk.symm
  -- hk : k = k' ... check orientation below
    · exact ih h.2 hmem'

theorem lookupKV_self_of_nodup {l : List (String × JsonValue)} {k : String} {v : JsonValue}
    (hnd : keysNodup l = true) (hmem : (k, v) ∈ l) : lookupKV l k = some v := by
  induction l with
  | nil => simp at hmem
  | cons kv rest ih =>
    obtain ⟨k', v'⟩ := kv
    simp [keysNodup] at hnd
    rcases List.mem_cons.mp hmem with heq | hmem'
    · injection heq with hk hv
      subst hk
      subst hv
      simp [lookupKV]
    · by_cases hk : k' = k
      · subst hk
        exact absurd hmem' (fun hmm => keyNotIn_not_mem hnd.1 hmm)
      · simp [lookupKV, hk]
        exact ih hnd.2 hmem'

theorem wfList_mem {xs : List JsonValue} {x : JsonValue}
    (h : wfList xs = true) (hmem : x ∈ xs) : wfJ x = true := by
  induction xs with
  | nil => simp at hmem
  | cons y ys ih =>
    simp [wfList] at h
    rcases List.mem_cons.mp hmem with heq | hmem'
    · subst heq; exact h.1
    · exact ih h.2 hmem'

theorem wfFields_mem {l : List (String × JsonValue)} {kv : String × JsonValue}
    (h : wfFields l = true) (hmem : kv ∈ l) : wfJ kv.2 = true := by
  induction l with
  | nil => simp at hmem
  | cons kv' rest ih =>
    obtain ⟨k', v'⟩ := kv'
    simp [wfFields] at h
    rcases List.mem_cons.mp hmem with heq | hmem'
    · subst heq; exact h.1
    · exact ih h.2 hmem'

theorem eqSpecList_refl_of {xs : List JsonValue}
    (h : ∀ x ∈ xs, eqSpec x x = true) : eqSpecList xs xs = true := by
  induction xs with
  | nil => simp [eqSpecList]
  | cons x xs ih =>
    simp [eqSpecList, h x (List.mem_cons_self x xs),
      ih (fun z hz => h z (List.mem_cons_of_mem x hz))]

theorem eqSpecFields_refl_of {r sub : List (String × JsonValue)}
    (h : ∀ kv ∈ sub, lookupKV r kv.1 = some kv.2 ∧ eqSpec kv.2 kv.2 = true) :
    eqSpecFields r sub = true := by
  induction sub with
  | nil => simp [eqSpecFields]
  | cons kv rest ih =>
    obtain ⟨k, v⟩ := kv
    have hh := h (k, v) (List.mem_cons_self _ _)
    rw [eqSpecFields_cons_some v rest hh.1]
    simp [hh.2, ih (fun z hz => h z (List.mem_cons_of_mem _ hz))]

theorem eqSpec_refl_aux :
    ∀ (n : Nat) (v : JsonValue), sizeOf v ≤ n → wfJ v = true → eqSpec v v = true := by
  intro n
  induction n with
  | zero =>
    intro v hv
    have := jsonSizeOf_pos v
    omega
  | succ n ih =>
    intro v hv hwf
    cases v with
    | null => simp [eqSpec]
    | boolean x => simp [eqSpec]
    | number x => simp [eqSpec, FiniteF64.beq, F64.beq]
    | string x => simp [eqSpec]
    | list xs =>
      have hall : ∀ x ∈ xs, eqSpec x x = true := by
        intro x hx
        apply ih x
        · have h1 := List.sizeOf_lt_of_mem hx
          have h2 : sizeOf (JsonValue.list xs) = 1 + sizeOf xs := by simp
          omega
        · exact wfList_mem (by simpa [wfJ] using hwf) hx
      simp [eqSpec, eqSpecList_refl_of hall]
    | object l =>
      have hwf' : keysNodup l = true ∧ wfFields l = true := by
        simpa [wfJ] using hwf
      have hall : ∀ kv ∈ l, lookupKV l kv.1 = some kv.2 ∧ eqSpec kv.2 kv.2 = true := by
        intro kv hkv
        obtain ⟨k0, v0⟩ := kv
        refine ⟨lookupKV_self_of_nodup hwf'.1 hkv, ?_⟩
        apply ih v0
        · have h1 := List.sizeOf_lt_of_mem hkv
          have h2 : sizeOf (k0, v0) = 1 + sizeOf k0 + sizeOf v0 := by simp
          have h3 : sizeOf (JsonValue.object l) = 1 + sizeOf l := by simp
          omega
        · exact wfFields_mem hwf'.2 hkv
      simp [eqSpec, eqSpecFields_refl_of hall]

theorem eqSpec_refl {v : JsonValue} (hwf : wfJ v = true) : eqSpec v v = true :=
  eqSpec_refl_aux (sizeOf v) v (Nat.le_refl _) hwf

/-! ### The parser (`FromStr for JsonValue`, lib.rs lines 341-534) -/

/-- Insignificant whitespace (lib.rs line 361). -/
def isWs (c : Char) : Bool :=
  c = ' ' || c = '\t' || c = '\n' || c = '\r'

/-- ASCII digit (`b'0'..=b'9'`). -/
def isDigitC (c : Char) : Bool :=
  '0' ≤ c && c ≤ '9'

/-- `(c - b'0') as f64`. -/
def digitVal (c : Char) : ℚ :=
  ((c.toNat - 48 : ℕ) : ℚ)

/-- `u8::is_ascii_control`. -/
def isCtrl (c : Char) : Bool :=
  c.toNat < 32 || c.toNat = 127

/-- Value of one hexadecimal digit. -/
def hexDigitVal (c : Char) : Option Nat :=
  if '0' ≤ c && c ≤ '9' then some (c.toNat - 48)
  else if 'a' ≤ c && c ≤ 'f' then some (c.toNat - 87)
  else if 'A' ≤ c && c ≤ 'F' then some (c.toNat - 55)
  else none

/-- Accumulate hexadecimal digits left to right. -/
def hexDigitsVal : List Char → Nat → Option Nat
  | [], acc => some acc
  | c :: rest, acc =>
    match hexDigitVal c with
    | some d => hexDigitsVal rest (acc * 16 + d)
    | none => none

/-- `u32::from_str_radix(s, 16)`: an optional sign followed by hex digits
(the wrapped value never exceeds four digits here, so unsigned overflow
cannot occur). -/
def fromStrRadix16 : List Char → Option Nat
  | [] => none
  | c :: rest =>
    if c = '+' then (if rest = [] then none else hexDigitsVal rest 0)
    else if c = '-' then
      (if rest = [] then none
       else (hexDigitsVal rest 0).bind (fun v => if v = 0 then some 0 else none))
    else hexDigitsVal (c :: rest) 0

/-- `bytes.get(i..i+n)` as a list slice. -/
def listSlice (bytes : List Char) (i n : Nat) : List Char :=
  (bytes.drop i).take n

/-- `bytes.get(i..i+pat.len()) == Some(pat)`: in-bounds and equal. -/
def sliceIs (bytes : List Char) (i : Nat) (pat : List Char) : Bool :=
  decide (i + pat.length ≤ bytes.length) && (listSlice bytes i pat.length == pat)

/-- The `\uXXXX` block of the string scanner (lib.rs lines 415-435), entered
with `bytes[i] = '\\'` and `bytes[i+1] = 'u'`: reads four hex digits; when
they form a high surrogate immediately followed by another `\uXXXX` escape
whose value is a low surrogate, combines the two into one extended code
point and consumes the second escape.  Returns the code point and the new
index (the caller still adds 2). -/
def scanUEscape (bytes : List Char) (i : Nat) : Except String (Nat × Nat) :=
  match (if i + 6 ≤ bytes.length then fromStrRadix16 (listSlice bytes (i + 2) 4) else none) with
  | none => .error "invalid hex string"
  | some cp =>
    let i1 := i + 4
    if 0xd800 ≤ cp ∧ cp < 0xdc00 then
      if sliceIs bytes (i1 + 2) ['\\', 'u'] then
        match (if i1 + 8 ≤ bytes.length then fromStrRadix16 (listSlice bytes (i1 + 4) 4)
               else none) with
        | none => .error "invalid hex string"
        | some low =>
          if 0xdc00 ≤ low ∧ low < 0xe000 then
            .ok (0x10000 + (low - 0xdc00) + (cp - 0xd800) * 1024, i1 + 6)
          else .ok (cp, i1)
      else .ok (cp, i1)
    else .ok (cp, i1)

/-- `char::from_u32(n).unwrap_or(replacement)`: an invalid or unpaired code
point (a surrogate, or a value beyond U+10FFFF) becomes U+FFFD. -/
def charFromU32 (n : Nat) : Char :=
  if n < 0xd800 ∨ (0xe000 ≤ n ∧ n < 0x110000) then Char.ofNat n else Char.ofNat 0xfffd

/-- Lowercase hexadecimal rendering (for the `{c:x}` format). -/
def hexStr (n : Nat) : String :=
  (Nat.toDigits 16 n).asString

/-- The string scanner (lib.rs lines 392-443), entered just past the opening
quote.  The source copies verbatim runs up to the next quote, backslash or
control byte and then resolves what it found; this model walks the same
characters one at a time, which consumes and produces exactly the same
characters.  Returns the accumulated string and the index just past the
closing quote. -/
def scanString (fuel : Nat) (bytes : List Char) (i : Nat) (acc : String) :
    Except String (String × Nat) :=
  match fuel with
  | 0 => .error "out of fuel"
  | fuel + 1 =>
    match bytes[i]? with
    | none => .error "missing end quote"
    | some c =>
      if c = '"' then .ok (acc, i + 1)
      else if c = '\\' then
        match bytes[i + 1]? with
        | none => .error "missing escape sequence"
        | some e =>
          if e = '"' then scanString fuel bytes (i + 2) (acc.push '"')
          else if e = '\\' then scanString fuel bytes (i + 2) (acc.push '\\')
          else if e = '/' then scanString fuel bytes (i + 2) (acc.push '/')
          else if e = 'b' then scanString fuel bytes (i + 2) (acc.push (Char.ofNat 8))
          else if e = 'f' then scanString fuel bytes (i + 2) (acc.push (Char.ofNat 12))
          else if e = 'n' then scanString fuel bytes (i + 2) (acc.push '\n')
          else if e = 'r' then scanString fuel bytes (i + 2) (acc.push '\r')
          else if e = 't' then scanString fuel bytes (i + 2) (acc.push '\t')
          else if e = 'u' then
            match scanUEscape bytes i with
            | .error msg => .error msg
            | .ok (cp, i') => scanString fuel bytes (i' + 2) (acc.push (charFromU32 cp))
          else .error ("invalid escape sequence: " ++ toString e.toNat)
      else if isCtrl c then
        .error ("illegal control character: 0x" ++ hexStr c.toNat)
      else scanString fuel bytes (i + 1) (acc.push c)

/-- After a key string: skip whitespace, require a colon, return the index
just past it (lib.rs lines 446-452). -/
def seekColon (bytes : List Char) (i : Nat) : Except String Nat :=
  match (bytes.drop i).findIdx? (fun c => !(isWs c)) with
  | none => .error "missing colon"
  | some pos => if bytes[i + pos]? = some ':' then .ok (i + pos + 1) else .error "missing colon"

/-- The exponent-digit loop (lib.rs lines 492-495). -/
def scanExpLoop (fuel : Nat) (bytes : List Char) (i : Nat) (e : F64) : F64 × Nat :=
  match fuel with
  | 0 => (e, i)
  | fuel + 1 =>
    match bytes[i]? with
    | some c =>
      if isDigitC c then
        scanExpLoop fuel bytes (i + 1) ((e.mul (.fin 10)).add (.fin (digitVal c)))
      else (e, i)
    | none => (e, i)

/-- The number-scanning loop (lib.rs lines 472-502), entered at the index of
the first digit (the loop immediately advances by one).  `dec` is
`decimal_places`. -/
def scanNumLoop (fuel : Nat) (bytes : List Char) (i : Nat) (num : F64) (dec : Nat) :
    Except String (F64 × Nat) :=
  match fuel with
  | 0 => .error "out of fuel"
  | fuel + 1 =>
    match bytes[i + 1]? with
    | some c =>
      if isDigitC c ∧ 0 < dec then
        scanNumLoop fuel bytes (i + 1)
          (num.add ((F64.fin (digitVal c)).div (F64.pow10 (.fin (dec : ℚ))))) (dec + 1)
      else if isDigitC c then
        scanNumLoop fuel bytes (i + 1) ((num.mul (.fin 10)).add (.fin (digitVal c))) dec
      else if c = '.' ∧ dec = 0 then
        scanNumLoop fuel bytes (i + 1) num 1
      else if c = 'e' ∨ c = 'E' then
        match bytes[i + 2]? with
        | none => .error "unexpected end of input"
        | some c2 =>
          if isDigitC c2 ∨ c2 = '-' ∨ c2 = '+' then
            let exp0 : F64 := if isDigitC c2 then .fin (digitVal c2) else .fin 0
            let expNeg : Bool := c2 = '-'
            let p := scanExpLoop fuel bytes (i + 3) exp0
            .ok (num.mul (F64.pow10 (if expNeg then p.1.neg else p.1)), p.2)
          else .error ("unexpected character: " ++ c2.toString)
      else .ok (num, i + 1)
    | none => .ok (num, i + 1)

/-- Number scanning after the sign (lib.rs lines 465-504): leading-zero
check, first digit, then the loop; the sign is applied at the very end. -/
def scanNumberCore (fuel : Nat) (bytes : List Char) (isNeg : Bool) (i0 : Nat) :
    Except String (F64 × Nat) :=
  match bytes[i0]?, bytes[i0 + 1]? with
  | some c, o2 =>
    if c = '0' ∧ o2.elim false isDigitC then .error "illegal leading zero"
    else if isDigitC c then
      match scanNumLoop fuel bytes i0 (.fin (digitVal c)) 0 with
      | .ok (x, j) => .ok ((if isNeg then x.neg else x), j)
      | .error msg => .error msg
    else .error ("unexpected character: " ++ c.toString)
  | none, _ => .error "unexpected end of input"

/-- Number scanning (lib.rs lines 460-504): optional minus sign, then the
rest. -/
def scanNumber (fuel : Nat) (bytes : List Char) (i : Nat) : Except String (F64 × Nat) :=
  let isNeg : Bool := decide (bytes[i]? = some '-')
  scanNumberCore fuel bytes isNeg (if isNeg then i + 1 else i)

/-- The parse-mode state (lib.rs lines 343-350). -/
inductive Expecting where
  | CommaOrBrace
  | CommaOrBracket
  | Key
  | KeyOrBrace
  | Value
  | ValueOrBracket
deriving DecidableEq

/-- The completion step at the bottom of the parser loop (lib.rs lines
521-532): append the finished value to the list on top of the stack, or
insert it into the object on top under the popped pending key; with an empty
container stack, succeed when the input is exactly consumed, otherwise keep
scanning with the state unchanged.  `inl` is a final result, `inr` the next
loop state. -/
def finishVal (len : Nat) (next : JsonValue) (i' : Nat) (stack : List JsonValue)
    (keyStack : List String) (expect : Expecting) :
    Except String (JsonValue ⊕ (Nat × List JsonValue × List String × Expecting)) :=
  match stack with
  | JsonValue.list xs :: rest =>
    .ok (.inr (i', JsonValue.list (xs ++ [next]) :: rest, keyStack, .CommaOrBracket))
  | JsonValue.object kvs :: rest =>
    match keyStack with
    | k :: ks => .ok (.inr (i', JsonValue.object (insertKV kvs k next) :: rest, ks, .CommaOrBrace))
    | [] => .error "missing pending key"
  | _ => if i' = len then .ok (.inl next) else .ok (.inr (i', stack, keyStack, expect))

/-- One iteration of the parser loop (lib.rs lines 359-533): `go` is the
continuation running the remaining iterations, `fuel` feeds the inner
scanners. -/
def parseStep (fuel : Nat)
    (go : Nat → List JsonValue → List String → Expecting → Except String JsonValue)
    (bytes : List Char) (i : Nat) (stack : List JsonValue) (keyStack : List String)
    (expect : Expecting) : Except String JsonValue :=
  match bytes[i]? with
  | none => .error "unexpected end of input"
  | some c =>
    if isWs c && !stack.isEmpty then
      go (i + 1) stack keyStack expect
    else if c = '{' ∧ (expect = .Value ∨ expect = .ValueOrBracket) then
      go (i + 1) (JsonValue.object [] :: stack) keyStack .KeyOrBrace
    else if c = '}' ∧ (expect = .CommaOrBrace ∨ expect = .KeyOrBrace) then
      match stack with
      | top :: rest =>
        match finishVal bytes.length top (i + 1) rest keyStack expect with
        | .error msg => .error msg
        | .ok (.inl v) => .ok v
        | .ok (.inr (i2, st2, ks2, ex2)) => go i2 st2 ks2 ex2
      | [] => .error "unexpected closing brace"
    else if c = ',' ∧ (expect = .CommaOrBracket ∨ expect = .CommaOrBrace) then
      go (i + 1) stack keyStack (if expect = .CommaOrBracket then .Value else .Key)
    else if c = '[' ∧ (expect = .Value ∨ expect = .ValueOrBracket) then
      go (i + 1) (JsonValue.list [] :: stack) keyStack .ValueOrBracket
    else if c = ']' ∧ (expect = .CommaOrBracket ∨ expect = .ValueOrBracket) then
      match stack with
      | top :: rest =>
        match finishVal bytes.length top (i + 1) rest keyStack expect with
        | .error msg => .error msg
        | .ok (.inl v) => .ok v
        | .ok (.inr (i2, st2, ks2, ex2)) => go i2 st2 ks2 ex2
      | [] => .error "unexpected closing bracket"
    else if c = '"' ∧
        (expect = .Value ∨ expect = .ValueOrBracket ∨ expect = .Key ∨ expect = .KeyOrBrace) then
      match scanString fuel bytes (i + 1) "" with
      | .error msg => .error msg
      | .ok (s, i') =>
        if expect = .Key ∨ expect = .KeyOrBrace then
          match seekColon bytes i' with
          | .error msg => .error msg
          | .ok j => go j stack (s :: keyStack) .Value
        else
          match finishVal bytes.length (JsonValue.string s) i' stack keyStack expect with
          | .error msg => .error msg
          | .ok (.inl v) => .ok v
          | .ok (.inr (i2, st2, ks2, ex2)) => go i2 st2 ks2 ex2
    else if (c = '-' ∨ isDigitC c) ∧ (expect = .Value ∨ expect = .ValueOrBracket) then
      match scanNumber fuel bytes i with
      | .error msg => .error msg
      | .ok (x, i') =>
        match finishVal bytes.length (jsonFromF64 x) i' stack keyStack expect with
        | .error msg => .error msg
        | .ok (.inl v) => .ok v
        | .ok (.inr (i2, st2, ks2, ex2)) => go i2 st2 ks2 ex2
    else if c = 't' ∧ (expect = .Value ∨ expect = .ValueOrBracket) ∧
        sliceIs bytes i ['t', 'r', 'u', 'e'] then
      match finishVal bytes.length (JsonValue.boolean true) (i + 4) stack keyStack expect with
      | .error msg => .error msg
      | .ok (.inl v) => .ok v
      | .ok (.inr (i2, st2, ks2, ex2)) => go i2 st2 ks2 ex2
    else if c = 'f' ∧ (expect = .Value ∨ expect = .ValueOrBracket) ∧
        sliceIs bytes i ['f', 'a', 'l', 's', 'e'] then
      match finishVal bytes.length (JsonValue.boolean false) (i + 5) stack keyStack expect with
      | .error msg => .error msg
      | .ok (.inl v) => .ok v
      | .ok (.inr (i2, st2, ks2, ex2)) => go i2 st2 ks2 ex2
    else if c = 'n' ∧ (expect = .Value ∨ expect = .ValueOrBracket) ∧
        sliceIs bytes i ['n', 'u', 'l', 'l'] then
      match finishVal bytes.length JsonValue.null (i + 4) stack keyStack expect with
      | .error msg => .error msg
      | .ok (.inl v) => .ok v
      | .ok (.inr (i2, st2, ks2, ex2)) => go i2 st2 ks2 ex2
    else .error ("unexpected character: " ++ c.toString)

/-- The parser loop (lib.rs lines 359-533): one fuel unit per iteration of
the source's `loop`; every iteration advances the index, so any fuel greater
than the input length is enough. -/
def parseLoop (fuel : Nat) (bytes : List Char) (i : Nat) (stack : List JsonValue)
    (keyStack : List String) (expect : Expecting) : Except String JsonValue :=
  match fuel with
  | 0 => .error "out of fuel"
  | fuel + 1 =>
    parseStep fuel (fun i' st ks ex => parseLoop fuel bytes i' st ks ex) bytes i stack
      keyStack expect

/-- `<JsonValue as FromStr>::from_str` (lib.rs lines 341-534): start at index
0 with empty stacks, expecting a value. -/
def fromStr (s : String) : Except String JsonValue :=
  parseLoop (s.data.length + 2) s.data 0 [] [] .Value

/-! ### Whitespace facts (spec §6): where the parser can end -/

theorem sliceIs_get {bytes : List Char} {i : Nat} {pat : List Char} {j : Nat}
    (h : sliceIs bytes i pat = true) (hj : j < pat.length) : bytes[i + j]? = pat[j]? := by
  simp [sliceIs, listSlice] at h
  rw [← h.2, List.getElem?_take, List.getElem?_drop]
  simp [hj]

theorem isWs_elim {c : Char} (h : isWs c = true) :
    c = ' ' ∨ c = '\t' ∨ c = '\n' ∨ c = '\r' := by
  simp [isWs] at h
  tauto

theorem not_isWs_of_isDigitC {c : Char} (h : isDigitC c = true) : isWs c = false := by
  cases hw : isWs c with
  | false => rfl
  | true =>
    rcases isWs_elim hw with rfl | rfl | rfl | rfl <;> simp [isDigitC] at h

/-- If the string scanner succeeds, the character just before the returned
index is the closing quote. -/
theorem scanString_ok_last {fuel : Nat} {bytes : List Char} {i : Nat} {acc s : String}
    {i' : Nat} (h : scanString fuel bytes i acc = .ok (s, i')) :
    1 ≤ i' ∧ bytes[i' - 1]? = some '"' := by
  induction fuel generalizing i acc with
  | zero => simp [scanString] at h
  | succ fuel ih =>
    rw [scanString] at h
    cases hb : bytes[i]? with
    | none => rw [hb] at h; simp at h
    | some c =>
      rw [hb] at h
      dsimp only at h
      by_cases hq : c = '"'
      · rw [if_pos hq] at h
        simp at h
        obtain ⟨-, rfl⟩ := h
        subst hq
        exact ⟨by omega, by simpa using hb⟩
      · rw [if_neg hq] at h
        by_cases hbs : c = '\\'
        · rw [if_pos hbs] at h
          cases he : bytes[i + 1]? with
          | none => rw [he] at h; simp at h
          | some e =>
            rw [he] at h
            dsimp only at h
            split_ifs at h with h1 h2 h3 h4 h5 h6 h7 h8 h9
            · exact ih h
            · exact ih h
            · exact ih h
            · exact ih h
            · exact ih h
            · exact ih h
            · exact ih h
            · exact ih h
            · cases hu : scanUEscape bytes i with
              | error msg => rw [hu] at h; simp at h
              | ok p => rw [hu] at h; exact ih h
        · rw [if_neg hbs] at h
          by_cases hctrl : isCtrl c = true
          · rw [if_pos hctrl] at h
            simp at h
          · rw [if_neg hctrl] at h
            exact ih h

/-- The exponent-digit loop only walks over digits, so the character before
its final index is the same non-whitespace character as on entry. -/
theorem scanExpLoop_inv {fuel : Nat} {bytes : List Char} {i : Nat} {e : F64}
    (hi : 1 ≤ i) (hc : ∃ c, bytes[i - 1]? = some c ∧ isWs c = false) :
    1 ≤ (scanExpLoop fuel bytes i e).2 ∧
      ∃ c, bytes[(scanExpLoop fuel bytes i e).2 - 1]? = some c ∧ isWs c = false := by
  induction fuel generalizing i e with
  | zero => exact ⟨hi, hc⟩
  | succ fuel ih =>
    rw [scanExpLoop]
    cases hb : bytes[i]? with
    | none => exact ⟨hi, hc⟩
    | some c =>
      dsimp only
      by_cases hd : isDigitC c = true
      · rw [if_pos hd]
        exact ih (by omega) ⟨c, by simpa using hb, not_isWs_of_isDigitC hd⟩
      · rw [if_neg hd]
        exact ⟨hi, hc⟩

/-- If the number loop succeeds, the character before the returned index is
part of the number, hence not whitespace. -/
theorem scanNumLoop_ok_last {fuel : Nat} {bytes : List Char} {i : Nat} {num : F64}
    {dec : Nat} {x : F64} {i' : Nat}
    (hc : ∃ c0, bytes[i]? = some c0 ∧ isWs c0 = false)
    (h : scanNumLoop fuel bytes i num dec = .ok (x, i')) :
    1 ≤ i' ∧ ∃ c, bytes[i' - 1]? = some c ∧ isWs c = false := by
  induction fuel generalizing i num dec with
  | zero => simp [scanNumLoop] at h
  | succ fuel ih =>
    rw [scanNumLoop] at h
    cases hb : bytes[i + 1]? with
    | none =>
      rw [hb] at h
      dsimp only at h
      simp at h
      obtain ⟨-, rfl⟩ := h
      exact ⟨by omega, by simpa using hc⟩
    | some c =>
      rw [hb] at h
      dsimp only at h
      split_ifs at h with h1 h2 h3 h4
      · exact ih ⟨c, by simpa using hb, not_isWs_of_isDigitC h1.1⟩ h
      · exact ih ⟨c, by simpa using hb, not_isWs_of_isDigitC h2⟩ h
      · refine ih ⟨c, by simpa using hb, ?_⟩ h
        rw [h3.1]
        decide
      · cases hb2 : bytes[i + 2]? with
        | none => rw [hb2] at h; simp at h
        | some c2 =>
          rw [hb2] at h
          dsimp only at h
          by_cases h5 : isDigitC c2 = true ∨ c2 = '-' ∨ c2 = '+'
          · rw [if_pos h5] at h
            simp only [Except.ok.injEq, Prod.mk.injEq] at h
            obtain ⟨-, rfl⟩ := h
            refine scanExpLoop_inv (by omega) ⟨c2, by simpa using hb2, ?_⟩
            rcases h5 with hd | hs | hs
            · exact not_isWs_of_isDigitC hd
            · rw [hs]; decide
            · rw [hs]; decide
          · rw [if_neg h5] at h
            simp at h
      · simp at h
        obtain ⟨-, rfl⟩ := h
        obtain ⟨c0, hc0, hw0⟩ := hc
        exact ⟨by omega, ⟨c0, by simpa using hc0, hw0⟩⟩

/-- If number scanning succeeds, the character before the returned index is
part of the number, hence not whitespace. -/
theorem scanNumberCore_ok_last {fuel : Nat} {bytes : List Char} {isNeg : Bool}
    {i0 : Nat} {x : F64} {i' : Nat}
    (h : scanNumberCore fuel bytes isNeg i0 = .ok (x, i')) :
    1 ≤ i' ∧ ∃ c, bytes[i' - 1]? = some c ∧ isWs c = false := by
  rw [scanNumberCore] at h
  cases hb : bytes[i0]? with
  | none => rw [hb] at h; simp at h
  | some c =>
    rw [hb] at h
    dsimp only at h
    split_ifs at h with h1 h2 h3
    all_goals
      cases hl : scanNumLoop fuel bytes i0 (.fin (digitVal c)) 0 with
      | error msg => rw [hl] at h; simp at h
      | ok p =>
        rw [hl] at h
        dsimp only at h
        simp only [Except.ok.injEq, Prod.mk.injEq] at h
        obtain ⟨-, rfl⟩ := h
        exact scanNumLoop_ok_last ⟨c, hb, not_isWs_of_isDigitC h2⟩ hl

theorem scanNumber_ok_last {fuel : Nat} {bytes : List Char} {i : Nat} {x : F64}
    {i' : Nat} (h : scanNumber fuel bytes i = .ok (x, i')) :
    1 ≤ i' ∧ ∃ c, bytes[i' - 1]? = some c ∧ isWs c = false :=
  scanNumberCore_ok_last h

/-- The completion step returns a final value only when the input is exactly
consumed. -/
theorem finishVal_inl {len : Nat} {next : JsonValue} {i' : Nat}
    {stack : List JsonValue} {ks : List String} {ex : Expecting} {v : JsonValue}
    (h : finishVal len next i' stack ks ex = .ok (.inl v)) : i' = len ∧ v = next := by
  have done : ∀ h' : (if i' = len then (Except.ok (.inl next) :
      Except String (JsonValue ⊕ (Nat × List JsonValue × List String × Expecting)))
      else .ok (.inr (i', stack, ks, ex))) = .ok (.inl v), i' = len ∧ v = next := by
    intro h'
    split_ifs at h' with hl
    · rw [Except.ok.injEq, Sum.inl.injEq] at h'
      exact ⟨hl, h'.symm⟩
    · exact absurd h' (by simp)
  cases stack with
  | nil => exact done h
  | cons top rest =>
    cases top with
    | null => exact done h
    | boolean b => exact done h
    | number f => exact done h
    | string s => exact done h
    | list xs => simp [finishVal] at h
    | object kvs =>
      cases ks with
      | nil => simp [finishVal] at h
      | cons k ks' => simp [finishVal] at h

/-- Shared shape of the completion dispatch inside `parseStep`: an `ok`
result either ends the parse exactly at the end of input (so the
arm-specific fact about the preceding character applies) or continues the
loop through `go`. -/
theorem dispatch_ok_last {bytes : List Char}
    {go : Nat → List JsonValue → List String → Expecting → Except String JsonValue}
    (hgo : ∀ {i : Nat} {stack : List JsonValue} {ks : List String} {ex : Expecting}
      {v : JsonValue}, go i stack ks ex = .ok v →
      ∃ c, bytes[bytes.length - 1]? = some c ∧ isWs c = false)
    {next : JsonValue} {i' : Nat} {stack : List JsonValue} {ks : List String}
    {ex : Expecting} {v : JsonValue}
    (hlast : ∃ c, bytes[i' - 1]? = some c ∧ isWs c = false)
    (h : ((match finishVal bytes.length next i' stack ks ex with
          | .error msg => .error msg
          | .ok (.inl v') => .ok v'
          | .ok (.inr (i2, st2, ks2, ex2)) => go i2 st2 ks2 ex2) :
          Except String JsonValue) = .ok v) :
    ∃ c, bytes[bytes.length - 1]? = some c ∧ isWs c = false := by
  cases hf : finishVal bytes.length next i' stack ks ex with
  | error msg => rw [hf] at h; simp at h
  | ok s =>
    cases s with
    | inl v' =>
      obtain ⟨hlen, -⟩ := finishVal_inl hf
      subst hlen
      exact hlast
    | inr st =>
      obtain ⟨i2, st2, ks2, ex2⟩ := st
      rw [hf] at h
      dsimp only at h
      exact hgo h

/-- If one parser step (with a continuation enjoying the same property)
returns a value, the last character of the input is not whitespace: every
way a value can be completed ends on a bracket, brace, quote, keyword letter
or number character. -/
theorem parseStep_ok_last {fuel : Nat} {bytes : List Char}
    {go : Nat → List JsonValue → List String → Expecting → Except String JsonValue}
    (hgo : ∀ {i : Nat} {stack : List JsonValue} {ks : List String} {ex : Expecting}
      {v : JsonValue}, go i stack ks ex = .ok v →
      ∃ c, bytes[bytes.length - 1]? = some c ∧ isWs c = false)
    {i : Nat} {stack : List JsonValue} {ks : List String} {ex : Expecting} {v : JsonValue}
    (h : parseStep fuel go bytes i stack ks ex = .ok v) :
    ∃ c, bytes[bytes.length - 1]? = some c ∧ isWs c = false := by
  rw [parseStep.eq_def] at h
  cases hb : bytes[i]? with
  | none => rw [hb] at h; simp at h
  | some c =>
    rw [hb] at h
    dsimp only at h
    by_cases h1 : (isWs c && !stack.isEmpty) = true
    · rw [if_pos h1] at h
      exact hgo h
    · rw [if_neg h1] at h
      by_cases h2 : c = '\x7b' ∧ (ex = Expecting.Value ∨ ex = Expecting.ValueOrBracket)
      · rw [if_pos h2] at h
        exact hgo h
      · rw [if_neg h2] at h
        by_cases h3 : c = '\x7d' ∧ (ex = Expecting.CommaOrBrace ∨ ex = Expecting.KeyOrBrace)
        · rw [if_pos h3] at h
          cases stack with
          | nil => simp at h
          | cons top rest =>
            dsimp only at h
            refine dispatch_ok_last hgo ⟨c, by simpa using hb, by rw [h3.1]; decide⟩ h
        · rw [if_neg h3] at h
          by_cases h4 : c = ',' ∧ (ex = Expecting.CommaOrBracket ∨ ex = Expecting.CommaOrBrace)
          · rw [if_pos h4] at h
            exact hgo h
          · rw [if_neg h4] at h
            by_cases h5 : c = '[' ∧ (ex = Expecting.Value ∨ ex = Expecting.ValueOrBracket)
            · rw [if_pos h5] at h
              exact hgo h
            · rw [if_neg h5] at h
              by_cases h6 : c = ']' ∧ (ex = Expecting.CommaOrBracket ∨ ex = Expecting.ValueOrBracket)
              · rw [if_pos h6] at h
                cases stack with
                | nil => simp at h
                | cons top rest =>
                  dsimp only at h
                  refine dispatch_ok_last hgo ⟨c, by simpa using hb, by rw [h6.1]; decide⟩ h
              · rw [if_neg h6] at h
                by_cases h7 : c = '"' ∧ (ex = Expecting.Value ∨ ex = Expecting.ValueOrBracket ∨ ex = Expecting.Key ∨ ex = Expecting.KeyOrBrace)
                · rw [if_pos h7] at h
                  cases hs : scanString fuel bytes (i + 1) "" with
                  | error msg => rw [hs] at h; simp at h
                  | ok p =>
                    obtain ⟨s, i'⟩ := p
                    rw [hs] at h
                    dsimp only at h
                    by_cases hk : ex = Expecting.Key ∨ ex = Expecting.KeyOrBrace
                    · rw [if_pos hk] at h
                      cases hcn : seekColon bytes i' with
                      | error msg => rw [hcn] at h; simp at h
                      | ok j =>
                        rw [hcn] at h
                        dsimp only at h
                        exact hgo h
                    · rw [if_neg hk] at h
                      obtain ⟨hi1, hq⟩ := scanString_ok_last hs
                      exact dispatch_ok_last hgo ⟨'"', hq, by decide⟩ h
                · rw [if_neg h7] at h
                  by_cases h8 : (c = '-' ∨ isDigitC c = true) ∧ (ex = Expecting.Value ∨ ex = Expecting.ValueOrBracket)
                  · rw [if_pos h8] at h
                    cases hn : scanNumber fuel bytes i with
                    | error msg => rw [hn] at h; simp at h
                    | ok p =>
                      obtain ⟨x, i'⟩ := p
                      rw [hn] at h
                      dsimp only at h
                      obtain ⟨hi1, hlast⟩ := scanNumber_ok_last hn
                      exact dispatch_ok_last hgo hlast h
                  · rw [if_neg h8] at h
                    by_cases h9 : c = 't' ∧ (ex = Expecting.Value ∨ ex = Expecting.ValueOrBracket) ∧ sliceIs bytes i ['t', 'r', 'u', 'e'] = true
                    · rw [if_pos h9] at h
                      refine dispatch_ok_last hgo ⟨'e', ?_, by decide⟩ h
                      have := sliceIs_get h9.2.2 (j := 3) (by decide)
                      rw [show i + 4 - 1 = i + 3 by omega]
                      simpa using this
                    · rw [if_neg h9] at h
                      by_cases h10 : c = 'f' ∧ (ex = Expecting.Value ∨ ex = Expecting.ValueOrBracket) ∧ sliceIs bytes i ['f', 'a', 'l', 's', 'e'] = true
                      · rw [if_pos h10] at h
                        refine dispatch_ok_last hgo ⟨'e', ?_, by decide⟩ h
                        have := sliceIs_get h10.2.2 (j := 4) (by decide)
                        rw [show i + 5 - 1 = i + 4 by omega]
                        simpa using this
                      · rw [if_neg h10] at h
                        by_cases h11 : c = 'n' ∧ (ex = Expecting.Value ∨ ex = Expecting.ValueOrBracket) ∧ sliceIs bytes i ['n', 'u', 'l', 'l'] = true
                        · rw [if_pos h11] at h
                          refine dispatch_ok_last hgo ⟨'l', ?_, by decide⟩ h
                          have := sliceIs_get h11.2.2 (j := 3) (by decide)
                          rw [show i + 4 - 1 = i + 3 by omega]
                          simpa using this
                        · rw [if_neg h11] at h
                          simp at h

/-- If the parser loop returns a value, the last character of the input is
not whitespace. -/
theorem parseLoop_ok_last {fuel : Nat} {bytes : List Char} {i : Nat}
    {stack : List JsonValue} {ks : List String} {ex : Expecting} {v : JsonValue}
    (h : parseLoop fuel bytes i stack ks ex = .ok v) :
    ∃ c, bytes[bytes.length - 1]? = some c ∧ isWs c = false := by
  induction fuel generalizing i stack ks ex v with
  | zero => simp [parseLoop] at h
  | succ fuel ih =>
    rw [parseLoop] at h
    exact parseStep_ok_last (fun hh => ih hh) h

/-- Whitespace with at least one open container: the parser skips the
character and continues unchanged (lib.rs lines 361-364). -/
theorem parseLoop_ws_skip {fuel : Nat} {bytes : List Char} {i : Nat}
    {stack : List JsonValue} {ks : List String} {ex : Expecting} {c : Char}
    (hb : bytes[i]? = some c) (hw : isWs c = true) (hs : stack ≠ []) :
    parseLoop (fuel + 1) bytes i stack ks ex = parseLoop fuel bytes (i + 1) stack ks ex := by
  have hne : stack.isEmpty = false := by
    cases stack with
    | nil => exact absurd rfl hs
    | cons a b => rfl
  rw [parseLoop, parseStep.eq_def, hb]
  dsimp only
  rw [if_pos (by rw [hw, hne]; rfl)]

/-- Whitespace with an empty container stack: no arm of the parser matches,
so the final arm reports the character (lib.rs line 518). -/
theorem isDigitC_false_of_isWs {c : Char} (h : isWs c = true) : isDigitC c = false := by
  rcases isWs_elim h with rfl | rfl | rfl | rfl <;> decide

theorem parseLoop_ws_toplevel {fuel : Nat} {bytes : List Char} {i : Nat}
    {ks : List String} {ex : Expecting} {c : Char}
    (hb : bytes[i]? = some c) (hw : isWs c = true) :
    parseLoop (fuel + 1) bytes i [] ks ex =
      .error ("unexpected character: " ++ c.toString) := by
  rcases isWs_elim hw with rfl | rfl | rfl | rfl <;>
    (rw [parseLoop, parseStep.eq_def, hb]; dsimp only;
     simp [sliceIs, isDigitC_false_of_isWs hw])

/-- Leading whitespace before a top-level document is rejected. -/
theorem fromStr_leading_ws (c : Char) (s : String) (hw : isWs c = true) :
    fromStr ⟨c :: s.data⟩ = .error ("unexpected character: " ++ c.toString) := by
  have h0 : (c :: s.data)[0]? = some c := by simp
  have heq : fromStr ⟨c :: s.data⟩ =
      parseLoop (s.data.length + 2 + 1) (c :: s.data) 0 [] [] .Value := by
    rw [fromStr]
    congr 1
  rw [heq, parseLoop_ws_toplevel h0 hw]

/-- Trailing whitespace after a top-level document is rejected: a successful
parse always ends on a non-whitespace character. -/
theorem fromStr_trailing_ws (s : String) (c : Char) (hw : isWs c = true)
    (v : JsonValue) : fromStr (s.push c) ≠ .ok v := by
  intro h
  have hdata : (s.push c).data = s.data ++ [c] := rfl
  rw [fromStr, hdata] at h
  obtain ⟨c', hc', hw'⟩ := parseLoop_ok_last h
  have hlen : (s.data ++ [c]).length - 1 = s.data.length := by simp
  rw [hlen, List.getElem?_concat_length] at hc'
  injection hc' with hcc
  rw [← hcc] at hw'
  rw [hw] at hw'
  cases hw'

/-! ### Unicode escapes (spec §4.2): surrogate-pair combination -/

theorem hexDigitsVal_ne_sign {c : Char} {rest : List Char} {acc v : Nat}
    (h : hexDigitsVal (c :: rest) acc = some v) : c ≠ '+' ∧ c ≠ '-' := by
  constructor
  · intro e
    subst e
    have hplus : hexDigitVal '+' = none := rfl
    simp [hexDigitsVal, hplus] at h
  · intro e
    subst e
    have hminus : hexDigitVal '-' = none := rfl
    simp [hexDigitsVal, hminus] at h

theorem fromStrRadix16_digits {c : Char} {rest : List Char} {v : Nat}
    (h : hexDigitsVal (c :: rest) 0 = some v) : fromStrRadix16 (c :: rest) = some v := by
  obtain ⟨hp, hm⟩ := hexDigitsVal_ne_sign h
  rw [fromStrRadix16]
  rw [if_neg hp, if_neg hm]
  exact h

/-- A `\uXXXX` escape holding a high surrogate, immediately followed by a
`\uXXXX` escape holding a low surrogate, combines into the single code point
`0x10000 + (low - 0xDC00) + (high - 0xD800) * 1024`, consuming both escapes
(lib.rs lines 415-435). -/
theorem scanUEscape_surrogate_pair
    (h1 h2 h3 h4 l1 l2 l3 l4 : Char) (hv lv : Nat)
    (hh : hexDigitsVal [h1, h2, h3, h4] 0 = some hv)
    (hl : hexDigitsVal [l1, l2, l3, l4] 0 = some lv)
    (hhi1 : 0xd800 ≤ hv) (hhi2 : hv < 0xdc00)
    (hlo1 : 0xdc00 ≤ lv) (hlo2 : lv < 0xe000) :
    scanUEscape ['\\', 'u', h1, h2, h3, h4, '\\', 'u', l1, l2, l3, l4] 0 =
      .ok (0x10000 + (lv - 0xdc00) + (hv - 0xd800) * 1024, 10) := by
  have hs1 : listSlice ['\\', 'u', h1, h2, h3, h4, '\\', 'u', l1, l2, l3, l4] (0 + 2) 4 =
      [h1, h2, h3, h4] := rfl
  have hs2 : listSlice ['\\', 'u', h1, h2, h3, h4, '\\', 'u', l1, l2, l3, l4] (0 + 4 + 4) 4 =
      [l1, l2, l3, l4] := rfl
  rw [scanUEscape]
  rw [if_pos (by simp)]
  rw [hs1, fromStrRadix16_digits hh]
  dsimp only
  rw [if_pos ⟨hhi1, hhi2⟩]
  rw [if_pos (by rw [show (0:Nat) + 4 + 2 = 6 from rfl]; rfl)]
  rw [if_pos (by simp)]
  rw [hs2, fromStrRadix16_digits hl]
  dsimp only
  rw [if_pos ⟨hlo1, hlo2⟩]

/-! ### Claim theorems -/

/-- C2: constructing a FiniteF64 from a non-finite f64 fails with an error
and converting a non-finite f64 into a JsonValue yields Null; a successful
FiniteF64 construction certifies finiteness, and unwrapping any FiniteF64
always gives a finite f64 — so no reachable JsonValue holds a Number wrapping
NaN or an infinity. -/
theorem claim_C2_finite_invariant :
    (∀ x : F64, x.isFinite = false →
        FiniteF64.tryFrom x = .error "value is not a finite number" ∧ jsonFromF64 x = .null)
    ∧ (∀ (x : F64) (f : FiniteF64), FiniteF64.tryFrom x = .ok f → x.isFinite = true)
    ∧ (∀ n : FiniteF64, (FiniteF64.toF64 n).isFinite = true) := by
  refine ⟨?_, ?_, ?_⟩
  · intro x hx
    cases x with
    | fin q => simp [F64.isFinite] at hx
    | nan => exact ⟨rfl, rfl⟩
    | inf s => exact ⟨rfl, rfl⟩
  · intro x f h
    cases x with
    | fin q => rfl
    | nan => simp [FiniteF64.tryFrom] at h
    | inf s => simp [FiniteF64.tryFrom] at h
  · intro n
    rfl

theorem claim_C2_witness :
    F64.nan.isFinite = false
    ∧ (FiniteF64.tryFrom .nan = .error "value is not a finite number"
        ∧ jsonFromF64 .nan = .null)
    ∧ FiniteF64.tryFrom (.fin 5) = .ok ⟨5⟩
    ∧ (F64.fin 5).isFinite = true :=
  ⟨rfl, claim_C2_finite_invariant.1 .nan rfl, rfl,
    claim_C2_finite_invariant.2.1 (.fin 5) ⟨5⟩ rfl⟩

/-- C4: evaluating the parser at the failing input of the claim.  The
completion handling (lib.rs lines 521-532) silently keeps scanning when a
value is completed at top level with input left over, so a second top-level
value concatenated after the first is accepted and returned (the first is
discarded): "nullnull" parses to Ok(Null) where the claim requires an
error.  The other listed inputs do fail as claimed. -/
theorem claim_C4_completion :
    fromStr "nullnull" = .ok .null
    ∧ fromStr "" = .error "unexpected end of input"
    ∧ fromStr "024" = .error "illegal leading zero"
    ∧ fromStr "-024" = .error "illegal leading zero"
    ∧ fromStr "[1, 2, 3" = .error "unexpected end of input"
    ∧ fromStr "[ \x7d" = .error "unexpected character: \x7d"
    ∧ fromStr "\x7b ]" = .error "unexpected character: ]"
    ∧ fromStr " []" = .error "unexpected character:  "
    ∧ fromStr "[]]" = .error "unexpected closing bracket"
    ∧ fromStr "\"unclosed" = .error "missing end quote"
    ∧ fromStr "#invalid" = .error "unexpected character: #" := by
  refine ⟨?_, ?_, ?_, ?_, ?_, ?_, ?_, ?_, ?_, ?_, ?_⟩ <;> with_unfolding_all rfl

/-- C5: the iterative work-list equality of the source coincides with the
recursive reference definition written from the specification. -/
theorem claim_C5_worklist_equality (a b : JsonValue) : jsonEq a b = eqSpec a b :=
  jsonEq_eqSpec a b

/-- C6: whitespace is skipped only while at least one container is open
(with an empty stack a whitespace character falls through to the
unexpected-character error); any leading or trailing whitespace around the
top-level document makes parsing fail, while whitespace between tokens
inside a container is accepted. -/
theorem claim_C6_whitespace :
    (∀ (fuel : Nat) (bytes : List Char) (i : Nat) (stack : List JsonValue)
        (ks : List String) (ex : Expecting) (c : Char),
        bytes[i]? = some c → isWs c = true → stack ≠ [] →
        parseLoop (fuel + 1) bytes i stack ks ex = parseLoop fuel bytes (i + 1) stack ks ex)
    ∧ (∀ (fuel : Nat) (bytes : List Char) (i : Nat) (ks : List String) (ex : Expecting)
        (c : Char), bytes[i]? = some c → isWs c = true →
        parseLoop (fuel + 1) bytes i [] ks ex =
          .error ("unexpected character: " ++ c.toString))
    ∧ (∀ (c : Char) (s : String), isWs c = true →
        fromStr ⟨c :: s.data⟩ = .error ("unexpected character: " ++ c.toString))
    ∧ (∀ (s : String) (c : Char) (v : JsonValue), isWs c = true → fromStr (s.push c) ≠ .ok v)
    ∧ fromStr "[ 1 , 2 ]" = .ok (.list [.number ⟨1⟩, .number ⟨2⟩])
    ∧ fromStr "\x7b \"a\" : 1 \x7d" = .ok (.object [("a", .number ⟨1⟩)]) :=
  ⟨fun _ _ _ _ _ _ _ hb hw hs => parseLoop_ws_skip hb hw hs,
    fun _ _ _ _ _ _ hb hw => parseLoop_ws_toplevel hb hw,
    fun c s hw => fromStr_leading_ws c s hw,
    fun s c v hw => fromStr_trailing_ws s c hw v,
    by with_unfolding_all rfl,
    by with_unfolding_all rfl⟩

theorem claim_C6_witness :
    isWs ' ' = true
    ∧ fromStr ⟨' ' :: "[]".data⟩ = .error ("unexpected character: " ++ ' '.toString)
    ∧ fromStr ("[]".push ' ') ≠ .ok (.list []) :=
  ⟨rfl, claim_C6_whitespace.2.2.1 ' ' "[]" rfl,
    claim_C6_whitespace.2.2.2.1 "[]" ' ' (.list []) rfl⟩

/-- C7: in string scanning, a high-surrogate hex escape immediately followed
by a low-surrogate hex escape combines into the single code point
0x10000 + (low - 0xDC00) + (high - 0xD800) * 1024; an unpaired surrogate
resolves to the replacement character U+FFFD; and the literal case
parses to the string "E F G". -/
theorem claim_C7_unicode_escapes :
    (∀ (h1 h2 h3 h4 l1 l2 l3 l4 : Char) (hv lv : Nat),
        hexDigitsVal [h1, h2, h3, h4] 0 = some hv →
        hexDigitsVal [l1, l2, l3, l4] 0 = some lv →
        0xd800 ≤ hv → hv < 0xdc00 → 0xdc00 ≤ lv → lv < 0xe000 →
        scanUEscape ['\\', 'u', h1, h2, h3, h4, '\\', 'u', l1, l2, l3, l4] 0 =
          .ok (0x10000 + (lv - 0xdc00) + (hv - 0xd800) * 1024, 10))
    ∧ fromStr "\"\\ud800\"" = .ok (.string (String.singleton (Char.ofNat 0xfffd)))
    ∧ fromStr "\"\\u0045 \\u0046 \\u0047\"" = .ok (.string "E F G") :=
  ⟨fun a1 a2 a3 a4 b1 b2 b3 b4 hv lv hh hl hhi1 hhi2 hlo1 hlo2 =>
      scanUEscape_surrogate_pair a1 a2 a3 a4 b1 b2 b3 b4 hv lv hh hl hhi1 hhi2 hlo1 hlo2,
    by with_unfolding_all rfl,
    by with_unfolding_all rfl⟩

theorem claim_C7_witness :
    hexDigitsVal ['d', '8', '0', '1'] 0 = some 0xd801
    ∧ hexDigitsVal ['d', 'c', '3', '7'] 0 = some 0xdc37
    ∧ scanUEscape ['\\', 'u', 'd', '8', '0', '1', '\\', 'u', 'd', 'c', '3', '7'] 0 =
        .ok (0x10000 + (0xdc37 - 0xdc00) + (0xd801 - 0xd800) * 1024, 10) :=
  ⟨rfl, rfl,
    claim_C7_unicode_escapes.1 'd' '8' '0' '1' 'd' 'c' '3' '7' 0xd801 0xdc37 rfl rfl
      (by decide) (by decide) (by decide) (by decide)⟩

/-- C8: number scanning accumulates integer digits by multiply-by-ten and
add, fraction digits by dividing by growing powers of ten, and applies the
exponent by multiplying with ten to its power; the literal cases evaluate
as the claim states, with the huge exponent degrading to Null. -/
theorem claim_C8_number_parsing :
    fromStr "1.0" = .ok (.number ⟨1⟩)
    ∧ fromStr "-0.00933e+5" = .ok (.number ⟨-933⟩)
    ∧ fromStr "18.4e-2" = .ok (.number ⟨23 / 125⟩)
    ∧ fromStr "21e99999999999999999999999999999999999" = .ok .null := by
  refine ⟨?_, ?_, ?_, ?_⟩ <;> with_unfolding_all rfl

/-- C10: equality on JsonValue is reflexive for every value satisfying the
HashMap key-uniqueness invariant (every value reachable in the library), in
particular for every Number, because FiniteF64 can never hold NaN — whereas
raw f64 equality is not reflexive (NaN is unequal to itself). -/
theorem claim_C10_equality_reflexive :
    (∀ v : JsonValue, wfJ v = true → jsonEq v v = true) ∧ F64.beq .nan .nan = false := by
  refine ⟨?_, rfl⟩
  intro v hwf
  rw [jsonEq_eqSpec]
  exact eqSpec_refl hwf

theorem claim_C10_witness :
    wfJ (JsonValue.list [JsonValue.null, JsonValue.boolean true, JsonValue.number ⟨1⟩]) = true
    ∧ jsonEq (JsonValue.list [JsonValue.null, JsonValue.boolean true, JsonValue.number ⟨1⟩])
        (JsonValue.list [JsonValue.null, JsonValue.boolean true, JsonValue.number ⟨1⟩]) = true :=
  ⟨by simp [wfJ, wfList],
    claim_C10_equality_reflexive.1 _ (by simp [wfJ, wfList])⟩
